import Mathlib

/-
Verification of the Essan genetic-algorithm engine (essan_ga.py).

The Python module is embedded shallowly: randomness is modelled by an
explicit generator state holding two infinite streams of raw draws
(naturals for index-style draws, unit-interval rationals for the random()
primitive), and Python exceptions are modelled by an Except monad whose
error value carries the generator state at the raise point, so that a
try/except handler resumes from exactly that state.  The external NLP
collaborators (the spaCy tokenizer and the WordNet synset database) are
modelled as oracle parameters, as the specification treats them as opaque
external services.  Python floats are idealised as rationals.
-/

namespace EssanGA

/-- A rational number in the half-open unit interval: the documented range
of the random() primitive of the Python standard library. -/
def UnitQ : Type := {q : ℚ // 0 ≤ q ∧ q < 1}

/-- State of the pseudo-random generator: two infinite streams of raw draws
together with the next position in each stream. -/
structure RGen : Type where
  nats : ℕ → ℕ
  reals : ℕ → UnitQ
  nidx : ℕ
  ridx : ℕ

/-- Python exception kinds raised by the embedded code. -/
inductive PyErr : Type
  | valueError : PyErr
  | indexError : PyErr
deriving DecidableEq

/-- The effect monad of the embedding: generator-state threading with
Python-style exceptions.  A raised exception carries the generator state at
the raise point. -/
def GaM (α : Type) : Type := RGen → Except (PyErr × RGen) (α × RGen)

def pureG {α : Type} (a : α) : GaM α := fun g => Except.ok (a, g)

def bindG {α β : Type} (m : GaM α) (f : α → GaM β) : GaM β := fun g =>
  match m g with
  | Except.error e => Except.error e
  | Except.ok (a, g1) => f a g1

def raiseG {α : Type} (e : PyErr) : GaM α := fun g => Except.error (e, g)

/-- Python try/except Exception around a computation: on any raise, run the
handler from the generator state at the raise point. -/
def tryCatchG {α : Type} (m : GaM α) (h : GaM α) : GaM α := fun g =>
  match m g with
  | Except.error (_, g1) => h g1
  | Except.ok r => Except.ok r

/-- Draw the next raw natural from the generator. -/
def nextNat : GaM ℕ := fun g =>
  Except.ok (g.nats g.nidx, RGen.mk g.nats g.reals (g.nidx + 1) g.ridx)

/-- Draw the next unit-interval rational from the generator (the value of a
random() call). -/
def nextReal : GaM ℚ := fun g =>
  Except.ok ((g.reals g.ridx).val, RGen.mk g.nats g.reals g.nidx (g.ridx + 1))

/-- Python random.randint(lo, hi): uniform integer in [lo, hi]; raises
ValueError on an empty range (lo greater than hi). -/
def randint (lo hi : ℕ) : GaM ℕ :=
  if lo ≤ hi then
    bindG nextNat (fun r => pureG (lo + r % (hi + 1 - lo)))
  else raiseG PyErr.valueError

/-- Python random.choice(xs) on a string: uniform element; raises IndexError
on an empty sequence. -/
def choiceG (xs : List Char) : GaM Char :=
  if xs.isEmpty then raiseG PyErr.indexError
  else bindG nextNat (fun r => pureG (xs.getD (r % xs.length) 'A'))

/-- Helper of the random.sample model: draw k elements without replacement
from the pool xs, each drawn uniformly from the remaining pool. -/
def sampleAux : ℕ → List ℕ → GaM (List ℕ)
  | 0, _ => pureG []
  | Nat.succ k, xs =>
    bindG nextNat (fun r =>
      bindG (sampleAux k (xs.eraseIdx (r % xs.length))) (fun rest =>
        pureG (xs.getD (r % xs.length) 0 :: rest)))

/-- Python random.sample(range(n), k): k distinct indices below n drawn
without replacement; raises ValueError when k exceeds n. -/
def sampleRange (n k : ℕ) : GaM (List ℕ) :=
  if k ≤ n then sampleAux k (List.range n) else raiseG PyErr.valueError

/-- The ESSAN_SYMBOL_KEYWORDS table of the source: each Essan symbol paired
with its associated keyword strings. -/
def ESSAN_SYMBOL_KEYWORDS : List (Char × List String) := [
  ('⦿', ["essence", "core", "being", "entity", "concept", "identity"]),
  ('⧈', ["connect", "relate", "link", "join", "combine", "interact", "network", "relationship", "bond", "synergy"]),
  ('⧬', ["initiate", "begin", "start", "trigger", "activate", "originate", "commence", "launch", "introduce"]),
  ('⫰', ["move", "flow", "act", "transform", "change", "progress", "evolve", "shift", "transition", "dynamic", "adapt"]),
  ('⧿', ["cycle", "repeat", "recur", "iterate", "loop", "feedback", "reiterate", "oscillate"]),
  ('◬', ["change", "transform", "adapt", "evolve", "modify", "shift", "mutate", "alter", "vary", "adjust"]),
  ('⧉', ["strength", "amplify", "intensify", "enhance", "reinforce", "boost", "augment", "magnify", "increase", "power"]),
  ('⩘', ["declare", "confirm", "finalize", "complete", "conclude", "finish", "end", "resolve", "affirm", "verify"]),
  ('⩉', ["query", "inquire", "question", "explore", "investigate", "probe", "examine", "research", "seek", "discover"]),
  ('⍾', ["diminish", "limit", "reduce", "restrict", "constrain", "control", "moderate", "regulate", "contain"]),
  ('⧾', ["purpose", "intention", "goal", "objective", "aim", "target", "intent", "motive", "reason", "drive"]),
  ('║', ["boundary", "limit", "barrier", "constraint", "restriction", "border", "edge", "threshold", "fence", "wall"])]

/-- The default symbol alphabet: the keys of ESSAN_SYMBOL_KEYWORDS. -/
def essanSymbols : List Char := ESSAN_SYMBOL_KEYWORDS.map Prod.fst

/-- External NLP collaborators, modelled as oracles.  tokenize models the
spaCy pipeline composed with the lemma/stopword/alpha filter (none models a
raised exception); synsets models wordnet.synsets, returning possibly-null
synsets each holding possibly-null lemmas with possibly-empty names
(Except.error models a raised exception). -/
structure Oracles : Type where
  tokenize : String → Option (List String)
  synsets : String → Except Unit (List (Option (List (Option String))))

/-- Shallow embedding of get_synonyms: collect the lemma names of all
synsets of the word, guarding against null synsets, null lemmas and empty
names; fall back to the singleton of the word itself when the database
raises, yields no synsets, or yields no lemma names.  A Python set is
modelled as a deduplicated list. -/
def get_synonyms (oc : Oracles) (word : String) : List String :=
  match oc.synsets word with
  | Except.error _ => [word]
  | Except.ok syns =>
    if syns.isEmpty then [word]
    else
      let synonyms := syns.foldl (fun acc syn =>
        match syn with
        | none => acc
        | some lems =>
          if lems.isEmpty then acc
          else lems.foldl (fun acc2 lem =>
            match lem with
            | none => acc2
            | some nm => if nm = "" then acc2 else acc2 ++ [nm]) acc) []
      if synonyms.isEmpty then [word] else synonyms.dedup

/-- Shallow embedding of calculate_task_accuracy: tokenize the lowered task
description (any tokenizer failure is caught and scored 0), then count the
chain occurrences of symbols one of whose keywords matches a task element
directly or through its synonyms, and divide by the chain length. -/
def calculate_task_accuracy (oc : Oracles) (symbol_chain : List Char) (task_description : String) : ℚ :=
  match oc.tokenize task_description.toLower with
  | none => 0
  | some task_elements =>
    let symbol_relevance : ℕ := symbol_chain.foldl (fun acc symbol =>
      match ESSAN_SYMBOL_KEYWORDS.find? (fun p => p.fst = symbol) with
      | none => acc
      | some p =>
        if p.snd.any (fun keyword =>
            task_elements.any (fun elem =>
              elem ∈ get_synonyms oc keyword ∨ elem = keyword))
        then acc + 1 else acc) 0
    if symbol_chain.length > 0 then (symbol_relevance : ℚ) / (symbol_chain.length : ℚ) else 0

/-- Shallow embedding of calculate_efficiency. -/
def calculate_efficiency (symbol_chain : List Char) : ℚ :=
  if symbol_chain.length > 0 then 1 / (symbol_chain.length : ℚ) else 0

/-- Shallow embedding of calculate_adaptability. -/
def calculate_adaptability (oc : Oracles) (symbol_chain : List Char)
    (original_task_description modified_task_description : String) : ℚ :=
  (calculate_task_accuracy oc symbol_chain original_task_description
    + calculate_task_accuracy oc symbol_chain modified_task_description) / 2

/-- Shallow embedding of calculate_recursive_depth. -/
def calculate_recursive_depth (symbol_chain : List Char) : ℕ :=
  min (symbol_chain.count '⧿') 1

/-- The deterministic part of calculate_user_satisfaction, as a function of
the raw random() draw u behind random.uniform(-0.1, 0.1). -/
def user_satisfaction_value (oc : Oracles) (symbol_chain : List Char)
    (task_description : String) (u : ℚ) : ℚ :=
  let accuracy := calculate_task_accuracy oc symbol_chain task_description
  let length_preference : ℚ := if symbol_chain.length < 15 then 9/10 else 7/10
  let recursion_present : ℚ := if '⧿' ∈ symbol_chain then 95/100 else 8/10
  let diversity_factor : ℚ :=
    if symbol_chain.dedup.length > 0 then 1 / (symbol_chain.dedup.length : ℚ) else 0
  let satisfaction := (1/2) * accuracy + (2/10) * length_preference
    + (2/10) * recursion_present + (1/10) * diversity_factor
    + (-(1/10) + u * (2/10))
  max 0 (min 1 satisfaction)

/-- Shallow embedding of calculate_user_satisfaction: the deterministic
blend perturbed by uniform(-0.1, 0.1) and clamped to the unit interval. -/
def calculate_user_satisfaction (oc : Oracles) (symbol_chain : List Char)
    (task_description : String) : GaM ℚ :=
  bindG nextReal (fun u =>
    pureG (user_satisfaction_value oc symbol_chain task_description u))

/-- The five fitness weights; the source requires exactly these keys. -/
structure Weights : Type where
  accuracy : ℚ
  efficiency : ℚ
  adaptability : ℚ
  recursion : ℚ
  user_satisfaction : ℚ

/-- Shallow embedding of calculate_fitness: the weighted sum of the five
sub-metric values. -/
def calculate_fitness (oc : Oracles) (symbol_chain : List Char)
    (task_description modified_task_description : String) (weights : Weights) : GaM ℚ :=
  let accuracy := calculate_task_accuracy oc symbol_chain task_description
  let efficiency := calculate_efficiency symbol_chain
  let adaptability := calculate_adaptability oc symbol_chain
    task_description modified_task_description
  let recursion := calculate_recursive_depth symbol_chain
  bindG (calculate_user_satisfaction oc symbol_chain task_description)
    (fun user_satisfaction =>
      pureG (weights.accuracy * accuracy
        + weights.efficiency * efficiency
        + weights.adaptability * adaptability
        + weights.recursion * (recursion : ℚ)
        + weights.user_satisfaction * user_satisfaction))

/-- One random chain of the given length: the join of length independent
uniform choices from the symbol set (one comprehension of the source). -/
def generate_chain (symbol_set : List Char) : ℕ → GaM (List Char)
  | 0 => pureG []
  | Nat.succ n =>
    bindG (choiceG symbol_set) (fun c =>
      bindG (generate_chain symbol_set n) (fun rest =>
        pureG (c :: rest)))

/-- Shallow embedding of generate_initial_population: population_size chains
whose lengths are drawn by randint(min_length, max_length). -/
def generate_initial_population (symbol_set : List Char)
    (min_length max_length : ℕ) : ℕ → GaM (List (List Char))
  | 0 => pureG []
  | Nat.succ n =>
    bindG (randint min_length max_length) (fun chain_length =>
      bindG (generate_chain symbol_set chain_length) (fun symbol_chain =>
        bindG (generate_initial_population symbol_set min_length max_length n)
          (fun rest => pureG (symbol_chain :: rest))))

/-- Shallow embedding of crossover: empty parents are returned unchanged;
otherwise a crossover point is drawn by randint(1, min(len1, len2) - 1)
and prefixes are completed by the other parent's suffix. -/
def crossover (parent1 parent2 : List Char) : GaM (List Char × List Char) :=
  if parent1.isEmpty || parent2.isEmpty then pureG (parent1, parent2)
  else
    bindG (randint 1 (min parent1.length parent2.length - 1))
      (fun crossover_point =>
        pureG (parent1.take crossover_point ++ parent2.drop crossover_point,
               parent2.take crossover_point ++ parent1.drop crossover_point))

/-- Shallow embedding of mutate: per symbol, a random() draw decides whether
the symbol is replaced by a uniform choice from the symbol set; the choice
is drawn only when the test succeeds, as in the source. -/
def mutate (symbol_set : List Char) (mutation_rate : ℚ) : List Char → GaM (List Char)
  | [] => pureG []
  | c :: rest =>
    bindG nextReal (fun u =>
      bindG (if u < mutation_rate then choiceG symbol_set else pureG c) (fun c2 =>
        bindG (mutate symbol_set mutation_rate rest) (fun rest2 =>
          pureG (c2 :: rest2))))

/-- The tournament scan of select_parents: starting from the first sampled
index, a later index replaces the current winner only on strictly greater
fitness. -/
def tournament_scan (fitnesses : List ℚ) : ℕ → List ℕ → ℕ
  | winner, [] => winner
  | winner, i :: rest =>
    tournament_scan fitnesses
      (if fitnesses.getD i 0 > fitnesses.getD winner 0 then i else winner) rest

/-- One tournament of select_parents: sample min(3, population size) indices
without replacement, then return the population member at the scanned
winner index.  An empty sample would make the subscript tournament[0]
raise IndexError, as in the source. -/
def select_one (population : List (List Char)) (fitnesses : List ℚ) : GaM (List Char) :=
  bindG (sampleRange population.length (min 3 population.length)) (fun t =>
    match t with
    | [] => raiseG PyErr.indexError
    | w :: rest => pureG (population.getD (tournament_scan fitnesses w rest) []))

/-- The loop of select_parents: num_parents independent tournaments. -/
def select_loop (population : List (List Char)) (fitnesses : List ℚ) : ℕ → GaM (List (List Char))
  | 0 => pureG []
  | Nat.succ n =>
    bindG (select_one population fitnesses) (fun p =>
      bindG (select_loop population fitnesses n) (fun rest =>
        pureG (p :: rest)))

/-- Shallow embedding of select_parents: empty population or empty fitness
list short-circuits to an empty parent list. -/
def select_parents (population : List (List Char)) (fitnesses : List ℚ)
    (num_parents : ℕ) : GaM (List (List Char)) :=
  if population.isEmpty || fitnesses.isEmpty then pureG []
  else select_loop population fitnesses num_parents

/-- The fitness list of a population, evaluated left to right as by the
list comprehension of the source. -/
def eval_fitnesses (oc : Oracles) (task_description modified_task_description : String)
    (weights : Weights) : List (List Char) → GaM (List ℚ)
  | [] => pureG []
  | chain :: rest =>
    bindG (calculate_fitness oc chain task_description modified_task_description weights)
      (fun f =>
        bindG (eval_fitnesses oc task_description modified_task_description weights rest)
          (fun fs => pureG (f :: fs)))

/-- The guarded body of one breeding iteration: when at least two parents
were returned, the two crossover children are mutated in order; otherwise
nothing is contributed (the if len(parents) >= 2 guard of the source). -/
def breed_pair (symbol_set : List Char) (mutation_rate : ℚ)
    (parents : List (List Char)) : GaM (List (List Char)) :=
  match parents with
  | p1 :: p2 :: _ =>
    bindG (crossover p1 p2) (fun children =>
      bindG (mutate symbol_set mutation_rate children.fst) (fun m1 =>
        bindG (mutate symbol_set mutation_rate children.snd) (fun m2 =>
          pureG [m1, m2])))
  | _ => pureG []

/-- The inner breeding loop of one generation: population_size / 2
iterations, each selecting two parents and appending the children
contributed by the guarded body. -/
def breed_loop (symbol_set : List Char) (mutation_rate : ℚ)
    (population : List (List Char)) (fitnesses : List ℚ) : ℕ → GaM (List (List Char))
  | 0 => pureG []
  | Nat.succ k =>
    bindG (select_parents population fitnesses 2) (fun parents =>
      bindG (breed_pair symbol_set mutation_rate parents) (fun pair =>
        bindG (breed_loop symbol_set mutation_rate population fitnesses k)
          (fun rest => pureG (pair ++ rest))))

/-- One generation of the loop of run_genetic_algorithm: evaluate the
population, breed a new one, and replace only when the new population is
non-empty. -/
def ga_generation (oc : Oracles) (task_description modified_task_description : String)
    (weights : Weights) (symbol_set : List Char) (mutation_rate : ℚ)
    (population_size : ℕ) (population : List (List Char)) : GaM (List (List Char)) :=
  bindG (eval_fitnesses oc task_description modified_task_description weights population)
    (fun fitnesses =>
      bindG (breed_loop symbol_set mutation_rate population fitnesses (population_size / 2))
        (fun new_population =>
          pureG (if new_population.isEmpty then population else new_population)))

/-- The generational loop of run_genetic_algorithm. -/
def ga_loop (oc : Oracles) (task_description modified_task_description : String)
    (weights : Weights) (symbol_set : List Char) (mutation_rate : ℚ)
    (population_size : ℕ) (population : List (List Char)) : ℕ → GaM (List (List Char))
  | 0 => pureG population
  | Nat.succ n =>
    bindG (ga_generation oc task_description modified_task_description weights
        symbol_set mutation_rate population_size population)
      (fun population2 =>
        ga_loop oc task_description modified_task_description weights
          symbol_set mutation_rate population_size population2 n)

/-- Python max over a non-empty list, reducing with the binary max (ties
keep the earlier value). -/
def pyMax : List ℚ → Option ℚ
  | [] => none
  | x :: rest => some (rest.foldl max x)

/-- The best-individual extraction of run_genetic_algorithm: evaluate the
final population once more and subscript it at the index of the first
maximal fitness; max of an empty list raises ValueError and an
out-of-range subscript raises IndexError, as in Python. -/
def best_of (oc : Oracles) (task_description modified_task_description : String)
    (weights : Weights) (population : List (List Char)) : GaM (List Char) :=
  bindG (eval_fitnesses oc task_description modified_task_description weights population)
    (fun fitnesses =>
      match pyMax fitnesses with
      | none => raiseG PyErr.valueError
      | some m =>
        if fitnesses.indexOf m < population.length then
          pureG (population.getD (fitnesses.indexOf m) [])
        else raiseG PyErr.indexError)

/-- The body of the try block of run_genetic_algorithm. -/
def run_body (oc : Oracles) (task_description modified_task_description : String)
    (weights : Weights) (population_size num_generations : ℕ)
    (symbol_set : List Char) (mutation_rate : ℚ) : GaM (List Char) :=
  bindG (generate_initial_population symbol_set 5 20 population_size)
    (fun population =>
      bindG (ga_loop oc task_description modified_task_description weights
          symbol_set mutation_rate population_size population num_generations)
        (fun final_population =>
          best_of oc task_description modified_task_description weights final_population))

/-- Shallow embedding of run_genetic_algorithm: a None symbol set defaults
to the vocabulary keys before the try block; any exception in the body is
caught and a fresh random chain of length 5 is returned from the generator
state at the failure point. -/
def run_genetic_algorithm (oc : Oracles) (task_description modified_task_description : String)
    (weights : Weights) (population_size num_generations : ℕ)
    (symbol_set : Option (List Char)) (mutation_rate : ℚ) : GaM (List Char) :=
  let symbols := symbol_set.getD essanSymbols
  tryCatchG
    (run_body oc task_description modified_task_description weights
      population_size num_generations symbols mutation_rate)
    (generate_chain symbols 5)

/-! Concrete data used to evaluate the embedding at explicit inputs. -/

/-- The zero of the unit interval, as a concrete random draw. -/
def q0 : UnitQ := ⟨0, by norm_num⟩

/-- A concrete generator whose streams are constantly zero. -/
def zeroGen : RGen := RGen.mk (fun _ => 0) (fun _ => q0) 0 0

/-- Trivial oracles: the tokenizer always fails (caught and scored 0) and
the synset database always yields no synsets. -/
def oc0 : Oracles := Oracles.mk (fun _ => none) (fun _ => Except.ok [])

/-- Uniform unit weights. -/
def w1 : Weights := Weights.mk 1 1 1 1 1

/-- Weights isolating the recursion sub-metric. -/
def wRec : Weights := Weights.mk 0 0 0 1 0

/-- An oracle under which the word dogs has one synset holding the single
lemma name dog, as WordNet yields for an inflected word. -/
def dogOracle : Oracles :=
  Oracles.mk (fun _ => none)
    (fun word => if word = "dogs" then Except.ok [some [some "dog"]] else Except.ok [])

/-! Basic lemmas about the effect monad and the random primitives. -/

theorem bindG_ok {α β : Type} {m : GaM α} {f : α → GaM β} {g g1 : RGen} {a : α}
    (h : m g = Except.ok (a, g1)) : bindG m f g = f a g1 := by
  simp only [bindG, h]

theorem bindG_err {α β : Type} {m : GaM α} {f : α → GaM β} {g : RGen}
    {e : PyErr × RGen} (h : m g = Except.error e) : bindG m f g = Except.error e := by
  simp only [bindG, h]

theorem pureG_eq {α : Type} (a : α) (g : RGen) : pureG a g = Except.ok (a, g) := rfl

theorem tryCatchG_of_ok {α : Type} {m h : GaM α} {g g1 : RGen} {a : α}
    (hm : m g = Except.ok (a, g1)) : tryCatchG m h g = Except.ok (a, g1) := by
  simp only [tryCatchG, hm]

theorem tryCatchG_of_err {α : Type} {m h : GaM α} {g g1 : RGen} {e : PyErr}
    (hm : m g = Except.error (e, g1)) : tryCatchG m h g = h g1 := by
  simp only [tryCatchG, hm]

theorem nextNat_eq (g : RGen) :
    nextNat g = Except.ok (g.nats g.nidx, RGen.mk g.nats g.reals (g.nidx + 1) g.ridx) := rfl

theorem nextReal_eq (g : RGen) :
    nextReal g = Except.ok ((g.reals g.ridx).val,
      RGen.mk g.nats g.reals g.nidx (g.ridx + 1)) := rfl

theorem randint_ok {lo hi : ℕ} (h : lo ≤ hi) (g : RGen) :
    randint lo hi g = Except.ok (lo + g.nats g.nidx % (hi + 1 - lo),
      RGen.mk g.nats g.reals (g.nidx + 1) g.ridx) := by
  simp only [randint, if_pos h]
  rfl

theorem randint_err {lo hi : ℕ} (h : ¬ lo ≤ hi) (g : RGen) :
    randint lo hi g = Except.error (PyErr.valueError, g) := by
  simp only [randint, if_neg h]
  rfl

theorem randint_val_bounds (lo hi : ℕ) (h : lo ≤ hi) (r : ℕ) :
    lo ≤ lo + r % (hi + 1 - lo) ∧ lo + r % (hi + 1 - lo) ≤ hi := by
  have hlt : r % (hi + 1 - lo) < hi + 1 - lo := Nat.mod_lt _ (by omega)
  omega

theorem getD_mem_of_lt {α : Type} (l : List α) (i : ℕ) (d : α) (h : i < l.length) :
    l.getD i d ∈ l := by
  rw [List.getD_eq_getElem l d h]
  exact List.getElem_mem h

theorem choiceG_ok {xs : List Char} (h : xs ≠ []) (g : RGen) :
    choiceG xs g = Except.ok (xs.getD (g.nats g.nidx % xs.length) 'A',
      RGen.mk g.nats g.reals (g.nidx + 1) g.ridx) := by
  have hne : ¬ (xs.isEmpty = true) := by simp [h]
  simp only [choiceG, if_neg hne]
  rfl

theorem choiceG_val_mem {xs : List Char} (h : xs ≠ []) (r : ℕ) :
    xs.getD (r % xs.length) 'A' ∈ xs := by
  have hlen : 0 < xs.length := List.length_pos.mpr h
  exact getD_mem_of_lt xs _ 'A' (Nat.mod_lt _ hlen)

/-! Lemmas about chain generation. -/

theorem generate_chain_spec (symbol_set : List Char) (h : symbol_set ≠ []) :
    ∀ (n : ℕ) (g : RGen), ∃ c g1, generate_chain symbol_set n g = Except.ok (c, g1)
      ∧ c.length = n ∧ ∀ x ∈ c, x ∈ symbol_set := by
  intro n
  induction n with
  | zero => intro g; exact ⟨[], g, rfl, rfl, by simp⟩
  | succ m ih =>
    intro g
    obtain ⟨rest, g2, hrest, hlen, hmem⟩ :=
      ih (RGen.mk g.nats g.reals (g.nidx + 1) g.ridx)
    refine ⟨symbol_set.getD (g.nats g.nidx % symbol_set.length) 'A' :: rest, g2, ?_, ?_, ?_⟩
    · show bindG (choiceG symbol_set) _ g = _
      rw [bindG_ok (choiceG_ok h g), bindG_ok hrest]
      rfl
    · simp [hlen]
    · intro x hx
      rcases List.mem_cons.mp hx with hx | hx
      · rw [hx]; exact choiceG_val_mem h _
      · exact hmem x hx

theorem generate_initial_population_spec (symbol_set : List Char) (h : symbol_set ≠ [])
    (min_length max_length : ℕ) (hml : min_length ≤ max_length) :
    ∀ (n : ℕ) (g : RGen), ∃ pop g1,
      generate_initial_population symbol_set min_length max_length n g = Except.ok (pop, g1)
      ∧ pop.length = n ∧ ∀ c ∈ pop, min_length ≤ c.length ∧ c.length ≤ max_length := by
  intro n
  induction n with
  | zero => intro g; exact ⟨[], g, rfl, rfl, by simp⟩
  | succ m ih =>
    intro g
    set g1 : RGen := RGen.mk g.nats g.reals (g.nidx + 1) g.ridx with hg1
    set clen : ℕ := min_length + g.nats g.nidx % (max_length + 1 - min_length) with hclen
    obtain ⟨c, g2, hc, hclen2, _⟩ := generate_chain_spec symbol_set h clen g1
    obtain ⟨rest, g3, hrest, hrlen, hrmem⟩ := ih g2
    refine ⟨c :: rest, g3, ?_, ?_, ?_⟩
    · show bindG (randint min_length max_length) _ g = _
      rw [bindG_ok (randint_ok hml g), bindG_ok hc, bindG_ok hrest]
      rfl
    · simp [hrlen]
    · intro x hx
      rcases List.mem_cons.mp hx with hx | hx
      · have hb := randint_val_bounds min_length max_length hml (g.nats g.nidx)
        subst hx
        rw [hclen2]
        exact ⟨hb.1, hb.2⟩
      · exact hrmem x hx

/-! Lemmas about crossover. -/

theorem crossover_degenerate (parent1 parent2 : List Char) (h1 : parent1 ≠ [])
    (h2 : parent2 ≠ []) (hmin : min parent1.length parent2.length = 1) (g : RGen) :
    crossover parent1 parent2 g = Except.error (PyErr.valueError, g) := by
  have hne : ¬ ((parent1.isEmpty || parent2.isEmpty) = true) := by simp [h1, h2]
  have hr : ¬ (1 : ℕ) ≤ 1 - 1 := by omega
  simp only [crossover, if_neg hne, hmin]
  exact bindG_err (randint_err hr g)

theorem crossover_spec (parent1 parent2 : List Char)
    (h1 : 2 ≤ parent1.length) (h2 : 2 ≤ parent2.length) (g : RGen) :
    ∃ pt g1, crossover parent1 parent2 g
        = Except.ok ((parent1.take pt ++ parent2.drop pt,
                      parent2.take pt ++ parent1.drop pt), g1)
      ∧ 1 ≤ pt ∧ pt ≤ min parent1.length parent2.length - 1
      ∧ (parent1.take pt ++ parent2.drop pt).length = parent2.length
      ∧ (parent2.take pt ++ parent1.drop pt).length = parent1.length := by
  have hne : ¬ ((parent1.isEmpty || parent2.isEmpty) = true) := by
    have e1 : parent1 ≠ [] := by intro e; rw [e] at h1; simp at h1
    have e2 : parent2 ≠ [] := by intro e; rw [e] at h2; simp at h2
    simp [e1, e2]
  have hhi : (1 : ℕ) ≤ min parent1.length parent2.length - 1 := by omega
  have hb := randint_val_bounds 1
    (min parent1.length parent2.length - 1) hhi (g.nats g.nidx)
  have hex : ∃ pt : ℕ,
      pt = 1 + g.nats g.nidx % (min parent1.length parent2.length - 1 + 1 - 1)
      ∧ 1 ≤ pt ∧ pt ≤ min parent1.length parent2.length - 1 :=
    ⟨_, rfl, hb.1, hb.2⟩
  obtain ⟨pt, hpteq, hpt1, hpt2⟩ := hex
  refine ⟨pt, RGen.mk g.nats g.reals (g.nidx + 1) g.ridx, ?_, hpt1, hpt2, ?_, ?_⟩
  · simp only [crossover, if_neg hne]
    rw [bindG_ok (randint_ok hhi g), ← hpteq]
    rfl
  · simp only [List.length_append, List.length_take, List.length_drop]
    omega
  · simp only [List.length_append, List.length_take, List.length_drop]
    omega

/-! Lemmas about mutate. -/

theorem mutate_spec (symbol_set : List Char) (h : symbol_set ≠ []) (mutation_rate : ℚ) :
    ∀ (chain : List Char) (g : RGen), ∃ out g1,
      mutate symbol_set mutation_rate chain g = Except.ok (out, g1)
      ∧ out.length = chain.length ∧ ∀ x ∈ out, x ∈ symbol_set ∨ x ∈ chain := by
  intro chain
  induction chain with
  | nil => intro g; exact ⟨[], g, rfl, rfl, by simp⟩
  | cons c rest ih =>
    intro g
    set g1 : RGen := RGen.mk g.nats g.reals g.nidx (g.ridx + 1) with hg1
    by_cases hu : (g.reals g.ridx).val < mutation_rate
    · obtain ⟨out, g3, hout, hlen, hmem⟩ :=
        ih (RGen.mk g1.nats g1.reals (g1.nidx + 1) g1.ridx)
      refine ⟨symbol_set.getD (g1.nats g1.nidx % symbol_set.length) 'A' :: out, g3, ?_, ?_, ?_⟩
      · show bindG nextReal _ g = _
        rw [bindG_ok (nextReal_eq g)]
        have hstep : (if (g.reals g.ridx).val < mutation_rate then choiceG symbol_set
            else pureG c) g1 = Except.ok
              (symbol_set.getD (g1.nats g1.nidx % symbol_set.length) 'A',
               RGen.mk g1.nats g1.reals (g1.nidx + 1) g1.ridx) := by
          rw [if_pos hu]; exact choiceG_ok h g1
        rw [bindG_ok hstep]
        rw [bindG_ok hout]
        rfl
      · simp [hlen]
      · intro x hx
        rcases List.mem_cons.mp hx with hx | hx
        · exact Or.inl (hx ▸ choiceG_val_mem h _)
        · rcases hmem x hx with hm | hm
          · exact Or.inl hm
          · exact Or.inr (List.mem_cons_of_mem c hm)
    · obtain ⟨out, g3, hout, hlen, hmem⟩ := ih g1
      refine ⟨c :: out, g3, ?_, ?_, ?_⟩
      · show bindG nextReal _ g = _
        rw [bindG_ok (nextReal_eq g)]
        have hstep : (if (g.reals g.ridx).val < mutation_rate then choiceG symbol_set
            else pureG c) g1 = Except.ok (c, g1) := by
          rw [if_neg hu]; exact pureG_eq c g1
        rw [bindG_ok hstep]
        rw [bindG_ok hout]
        rfl
      · simp [hlen]
      · intro x hx
        rcases List.mem_cons.mp hx with hx | hx
        · exact Or.inr (hx ▸ List.mem_cons_self c rest)
        · rcases hmem x hx with hm | hm
          · exact Or.inl hm
          · exact Or.inr (List.mem_cons_of_mem c hm)

theorem mutate_zero (symbol_set : List Char) :
    ∀ (chain : List Char) (g : RGen),
      mutate symbol_set 0 chain g = Except.ok (chain,
        RGen.mk g.nats g.reals g.nidx (g.ridx + chain.length)) := by
  intro chain
  induction chain with
  | nil =>
    intro g
    show pureG [] g = _
    rw [pureG_eq]
    simp
  | cons c rest ih =>
    intro g
    set g1 : RGen := RGen.mk g.nats g.reals g.nidx (g.ridx + 1) with hg1
    have hu : ¬ ((g.reals g.ridx).val < 0) := not_lt.mpr (g.reals g.ridx).property.1
    show bindG nextReal _ g = _
    rw [bindG_ok (nextReal_eq g)]
    have hstep : (if (g.reals g.ridx).val < (0 : ℚ) then choiceG symbol_set
        else pureG c) g1 = Except.ok (c, g1) := by
      rw [if_neg hu]; exact pureG_eq c g1
    rw [bindG_ok hstep]
    rw [bindG_ok (ih g1)]
    show Except.ok _ = Except.ok _
    have : g.ridx + 1 + rest.length = g.ridx + (rest.length + 1) := by omega
    simp [hg1, this]

theorem mutate_one (symbol_set : List Char) (h : symbol_set ≠ []) :
    ∀ (chain : List Char) (g : RGen),
      mutate symbol_set 1 chain g = Except.ok (
        (List.range chain.length).map
          (fun j => symbol_set.getD (g.nats (g.nidx + j) % symbol_set.length) 'A'),
        RGen.mk g.nats g.reals (g.nidx + chain.length) (g.ridx + chain.length)) := by
  intro chain
  induction chain with
  | nil =>
    intro g
    show pureG [] g = _
    rw [pureG_eq]
    simp
  | cons c rest ih =>
    intro g
    set g1 : RGen := RGen.mk g.nats g.reals g.nidx (g.ridx + 1) with hg1
    have hu : (g.reals g.ridx).val < 1 := (g.reals g.ridx).property.2
    show bindG nextReal _ g = _
    rw [bindG_ok (nextReal_eq g)]
    have hstep : (if (g.reals g.ridx).val < (1 : ℚ) then choiceG symbol_set
        else pureG c) g1 = Except.ok
          (symbol_set.getD (g1.nats g1.nidx % symbol_set.length) 'A',
           RGen.mk g1.nats g1.reals (g1.nidx + 1) g1.ridx) := by
      rw [if_pos hu]; exact choiceG_ok h g1
    rw [bindG_ok hstep]
    set g2 : RGen := RGen.mk g1.nats g1.reals (g1.nidx + 1) g1.ridx with hg2
    rw [bindG_ok (ih g2)]
    show Except.ok _ = Except.ok _
    have hmap : (List.range rest.length).map
        (fun j => symbol_set.getD (g2.nats (g2.nidx + j) % symbol_set.length) 'A')
        = (List.range rest.length).map
          ((fun j => symbol_set.getD (g.nats (g.nidx + j) % symbol_set.length) 'A')
            ∘ Nat.succ) := by
      apply List.map_congr_left
      intro a _
      have : g.nidx + 1 + a = g.nidx + Nat.succ a := by omega
      simp [hg2, hg1, this]
    have hstate : g.nidx + 1 + rest.length = g.nidx + (rest.length + 1)
        ∧ g.ridx + 1 + rest.length = g.ridx + (rest.length + 1) := by omega
    simp only [List.length_cons]
    rw [List.range_succ_eq_map, List.map_cons, List.map_map]
    simp only [hg2, hg1] at hmap ⊢
    rw [← hmap]
    simp [hstate.1, hstate.2]

/-! Lemmas about sampling without replacement. -/

theorem getD_not_mem_eraseIdx : ∀ (xs : List ℕ) (j : ℕ), xs.Nodup → j < xs.length →
    xs.getD j 0 ∉ xs.eraseIdx j := by
  intro xs
  induction xs with
  | nil => intro j _ hj; simp at hj
  | cons x rest ih =>
    intro j hnd hj
    cases j with
    | zero =>
      simp only [List.getD_cons_zero, List.eraseIdx_cons_zero]
      exact (List.nodup_cons.mp hnd).1
    | succ j2 =>
      simp only [List.getD_cons_succ, List.eraseIdx_cons_succ]
      intro hmem
      rcases List.mem_cons.mp hmem with hx | hx
      · have hj2 : j2 < rest.length := by simpa using hj
        have hin : rest.getD j2 0 ∈ rest := getD_mem_of_lt rest j2 0 hj2
        exact (List.nodup_cons.mp hnd).1 (hx ▸ hin)
      · exact ih j2 (List.nodup_cons.mp hnd).2 (by simpa using hj) hx

theorem sampleAux_spec : ∀ (k : ℕ) (xs : List ℕ), k ≤ xs.length → ∀ g : RGen,
    ∃ l g1, sampleAux k xs g = Except.ok (l, g1)
      ∧ l.length = k ∧ (∀ a ∈ l, a ∈ xs) ∧ (xs.Nodup → l.Nodup) := by
  intro k
  induction k with
  | zero => intro xs _ g; exact ⟨[], g, rfl, rfl, by simp, by simp⟩
  | succ k2 ih =>
    intro xs hk g
    have hxs : 0 < xs.length := by omega
    have hj : g.nats g.nidx % xs.length < xs.length := Nat.mod_lt _ hxs
    have herase : k2 ≤ (xs.eraseIdx (g.nats g.nidx % xs.length)).length := by
      rw [List.length_eraseIdx_of_lt hj]; omega
    obtain ⟨rest, g2, hrest, hrl, hrmem, hrnd⟩ :=
      ih (xs.eraseIdx (g.nats g.nidx % xs.length)) herase
        (RGen.mk g.nats g.reals (g.nidx + 1) g.ridx)
    refine ⟨xs.getD (g.nats g.nidx % xs.length) 0 :: rest, g2, ?_, ?_, ?_, ?_⟩
    · show bindG nextNat _ g = _
      rw [bindG_ok (nextNat_eq g), bindG_ok hrest]
      rfl
    · simp [hrl]
    · intro a ha
      rcases List.mem_cons.mp ha with ha | ha
      · exact ha ▸ getD_mem_of_lt xs _ 0 hj
      · exact List.mem_of_mem_eraseIdx (hrmem a ha)
    · intro hnd
      have hndE : (xs.eraseIdx (g.nats g.nidx % xs.length)).Nodup :=
        (List.eraseIdx_sublist xs (g.nats g.nidx % xs.length)).nodup hnd
      refine List.nodup_cons.mpr ⟨?_, hrnd hndE⟩
      intro hmem
      exact getD_not_mem_eraseIdx xs _ hnd hj (hrmem _ hmem)

theorem sampleRange_spec (n k : ℕ) (hk : k ≤ n) (g : RGen) :
    ∃ l g1, sampleRange n k g = Except.ok (l, g1)
      ∧ l.length = k ∧ (∀ a ∈ l, a < n) ∧ l.Nodup := by
  obtain ⟨l, g1, hs, hl, hmem, hnd⟩ :=
    sampleAux_spec k (List.range n) (by simpa using hk) g
  refine ⟨l, g1, ?_, hl, ?_, hnd (List.nodup_range n)⟩
  · simp only [sampleRange, if_pos hk]
    exact hs
  · intro a ha
    exact List.mem_range.mp (hmem a ha)

/-! Lemmas about the tournament scan and parent selection. -/

theorem tournament_scan_split (fitnesses : List ℚ) :
    ∀ (l : List ℕ) (w : ℕ), ∃ l1 l2,
      w :: l = l1 ++ tournament_scan fitnesses w l :: l2
      ∧ (∀ i ∈ l1, fitnesses.getD i 0 < fitnesses.getD (tournament_scan fitnesses w l) 0)
      ∧ (∀ i ∈ l2, fitnesses.getD i 0 ≤ fitnesses.getD (tournament_scan fitnesses w l) 0) := by
  intro l
  induction l with
  | nil => intro w; exact ⟨[], [], rfl, by simp, by simp⟩
  | cons i rest ih =>
    intro w
    by_cases hc : fitnesses.getD i 0 > fitnesses.getD w 0
    · have hscan : tournament_scan fitnesses w (i :: rest)
          = tournament_scan fitnesses i rest := by
        show tournament_scan fitnesses
          (if fitnesses.getD i 0 > fitnesses.getD w 0 then i else w) rest = _
        rw [if_pos hc]
      obtain ⟨l1, l2, hsplit, hlt, hle⟩ := ih i
      have hile : fitnesses.getD i 0 ≤ fitnesses.getD (tournament_scan fitnesses i rest) 0 := by
        cases l1 with
        | nil =>
          have : i = tournament_scan fitnesses i rest := by
            have := hsplit
            simp only [List.nil_append] at this
            exact (List.cons_eq_cons.mp this).1
          rw [← this]
        | cons y l1' =>
          have hy : y = i := by
            rw [List.cons_append] at hsplit
            exact ((List.cons_eq_cons.mp hsplit).1).symm
          exact le_of_lt (hlt i (hy ▸ List.mem_cons_self y l1'))
      refine ⟨w :: l1, l2, ?_, ?_, ?_⟩
      · rw [hscan, List.cons_append, ← hsplit]
      · intro x hx
        rcases List.mem_cons.mp hx with hx | hx
        · rw [hscan]
          exact hx ▸ lt_of_lt_of_le hc hile
        · rw [hscan]
          exact hlt x hx
      · intro x hx
        rw [hscan]
        exact hle x hx
    · have hscan : tournament_scan fitnesses w (i :: rest)
          = tournament_scan fitnesses w rest := by
        show tournament_scan fitnesses
          (if fitnesses.getD i 0 > fitnesses.getD w 0 then i else w) rest = _
        rw [if_neg hc]
      have hiw : fitnesses.getD i 0 ≤ fitnesses.getD w 0 := not_lt.mp hc
      obtain ⟨l1, l2, hsplit, hlt, hle⟩ := ih w
      cases l1 with
      | nil =>
        simp only [List.nil_append] at hsplit
        have hr : w = tournament_scan fitnesses w rest := (List.cons_eq_cons.mp hsplit).1
        have hl2 : l2 = rest := ((List.cons_eq_cons.mp hsplit).2).symm
        refine ⟨[], i :: rest, ?_, by simp, ?_⟩
        · rw [hscan, List.nil_append, ← hr]
        · intro x hx
          rcases List.mem_cons.mp hx with hx | hx
          · rw [hscan, ← hr]
            exact hx ▸ hiw
          · rw [hscan]
            exact hle x (hl2 ▸ hx)
      | cons y l1' =>
        rw [List.cons_append] at hsplit
        have hy : y = w := ((List.cons_eq_cons.mp hsplit).1).symm
        have htail : rest = l1' ++ tournament_scan fitnesses w rest :: l2 :=
          (List.cons_eq_cons.mp hsplit).2
        have hwlt : fitnesses.getD w 0 < fitnesses.getD (tournament_scan fitnesses w rest) 0 :=
          hlt w (hy ▸ List.mem_cons_self y l1')
        refine ⟨w :: i :: l1', l2, ?_, ?_, ?_⟩
        · rw [hscan]
          simp only [List.cons_append]
          rw [← htail]
        · intro x hx
          rw [hscan]
          rcases List.mem_cons.mp hx with hx | hx
          · exact hx ▸ hwlt
          · rcases List.mem_cons.mp hx with hx | hx
            · exact hx ▸ lt_of_le_of_lt hiw hwlt
            · exact hlt x (hy ▸ List.mem_cons_of_mem y hx)
        · intro x hx
          rw [hscan]
          exact hle x hx

theorem tournament_scan_mem (fitnesses : List ℚ) (l : List ℕ) (w : ℕ) :
    tournament_scan fitnesses w l ∈ w :: l := by
  obtain ⟨l1, l2, hsplit, _, _⟩ := tournament_scan_split fitnesses l w
  rw [hsplit]
  exact List.mem_append.mpr (Or.inr (List.mem_cons_self _ _))

theorem tournament_scan_ge (fitnesses : List ℚ) (l : List ℕ) (w : ℕ) :
    ∀ i ∈ w :: l, fitnesses.getD i 0 ≤ fitnesses.getD (tournament_scan fitnesses w l) 0 := by
  obtain ⟨l1, l2, hsplit, hlt, hle⟩ := tournament_scan_split fitnesses l w
  intro i hi
  rw [hsplit] at hi
  rcases List.mem_append.mp hi with h | h
  · exact le_of_lt (hlt i h)
  · rcases List.mem_cons.mp h with h | h
    · rw [h]
    · exact hle i h

theorem select_one_spec (population : List (List Char)) (fitnesses : List ℚ)
    (hpop : population ≠ []) (g : RGen) :
    ∃ t g1 w, sampleRange population.length (min 3 population.length) g = Except.ok (t, g1)
      ∧ select_one population fitnesses g = Except.ok (population.getD w [], g1)
      ∧ t.length = min 3 population.length ∧ t.Nodup ∧ (∀ i ∈ t, i < population.length)
      ∧ w ∈ t ∧ (∀ i ∈ t, fitnesses.getD i 0 ≤ fitnesses.getD w 0)
      ∧ (∃ t1 t2, t = t1 ++ w :: t2 ∧ ∀ i ∈ t1, fitnesses.getD i 0 < fitnesses.getD w 0)
      ∧ population.getD w [] ∈ population := by
  have hn : 0 < population.length := List.length_pos.mpr hpop
  have hk : min 3 population.length ≤ population.length := min_le_right _ _
  obtain ⟨t, g1, hs, htl, htmem, htnd⟩ :=
    sampleRange_spec population.length (min 3 population.length) hk g
  have htpos : 0 < t.length := by rw [htl]; omega
  obtain ⟨h0, rest, ht⟩ : ∃ h0 rest, t = h0 :: rest := by
    cases t with
    | nil => simp at htpos
    | cons a b => exact ⟨a, b, rfl⟩
  subst ht
  have hwmem : tournament_scan fitnesses h0 rest ∈ h0 :: rest :=
    tournament_scan_mem fitnesses rest h0
  refine ⟨h0 :: rest, g1, tournament_scan fitnesses h0 rest, hs, ?_, htl, htnd, htmem,
    hwmem, tournament_scan_ge fitnesses rest h0, ?_, ?_⟩
  · show bindG (sampleRange _ _) _ g = _
    rw [bindG_ok hs]
    rfl
  · obtain ⟨t1, t2, hsplit, hlt, _⟩ := tournament_scan_split fitnesses rest h0
    exact ⟨t1, t2, hsplit, hlt⟩
  · exact getD_mem_of_lt _ _ _ (htmem _ hwmem)

theorem select_loop_spec (population : List (List Char)) (fitnesses : List ℚ)
    (hpop : population ≠ []) : ∀ (n : ℕ) (g : RGen),
    ∃ ps g1, select_loop population fitnesses n g = Except.ok (ps, g1)
      ∧ ps.length = n ∧ ∀ p ∈ ps, p ∈ population := by
  intro n
  induction n with
  | zero => intro g; exact ⟨[], g, rfl, rfl, by simp⟩
  | succ m ih =>
    intro g
    obtain ⟨t, g1, w, _, hsel, _, _, _, _, _, _, hmem1⟩ :=
      select_one_spec population fitnesses hpop g
    obtain ⟨ps, g2, hrest, hlen, hmem⟩ := ih g1
    refine ⟨population.getD w [] :: ps, g2, ?_, ?_, ?_⟩
    · show bindG (select_one _ _) _ g = _
      rw [bindG_ok hsel, bindG_ok hrest]
      rfl
    · simp [hlen]
    · intro p hp
      rcases List.mem_cons.mp hp with hp | hp
      · exact hp ▸ hmem1
      · exact hmem p hp

theorem select_parents_spec (population : List (List Char)) (fitnesses : List ℚ)
    (hpop : population ≠ []) (hfit : fitnesses ≠ []) (g : RGen) :
    ∃ p1 p2 g1, select_parents population fitnesses 2 g = Except.ok ([p1, p2], g1)
      ∧ p1 ∈ population ∧ p2 ∈ population := by
  have hcond : ¬ ((population.isEmpty || fitnesses.isEmpty) = true) := by
    simp [hpop, hfit]
  obtain ⟨ps, g1, hl, hlen, hmem⟩ := select_loop_spec population fitnesses hpop 2 g
  obtain ⟨p1, p2, hps⟩ : ∃ p1 p2, ps = [p1, p2] := by
    cases ps with
    | nil => simp at hlen
    | cons a b =>
      cases b with
      | nil => simp at hlen
      | cons c d =>
        cases d with
        | nil => exact ⟨a, c, rfl⟩
        | cons e f => simp at hlen
  subst hps
  refine ⟨p1, p2, g1, ?_, hmem p1 (by simp), hmem p2 (by simp)⟩
  simp only [select_parents, if_neg hcond]
  exact hl

/-! Lemmas about fitness evaluation. -/

theorem calculate_fitness_eq (oc : Oracles) (chain : List Char) (td mtd : String)
    (w : Weights) (g : RGen) :
    calculate_fitness oc chain td mtd w g = Except.ok (
      w.accuracy * calculate_task_accuracy oc chain td
      + w.efficiency * calculate_efficiency chain
      + w.adaptability * calculate_adaptability oc chain td mtd
      + w.recursion * (calculate_recursive_depth chain : ℚ)
      + w.user_satisfaction * user_satisfaction_value oc chain td ((g.reals g.ridx).val),
      RGen.mk g.nats g.reals g.nidx (g.ridx + 1)) := rfl

theorem eval_fitnesses_spec (oc : Oracles) (td mtd : String) (w : Weights) :
    ∀ (pop : List (List Char)) (g : RGen), ∃ fits g1,
      eval_fitnesses oc td mtd w pop g = Except.ok (fits, g1)
      ∧ fits.length = pop.length := by
  intro pop
  induction pop with
  | nil => intro g; exact ⟨[], g, rfl, rfl⟩
  | cons c rest ih =>
    intro g
    obtain ⟨fits, g2, hrest, hlen⟩ := ih (RGen.mk g.nats g.reals g.nidx (g.ridx + 1))
    refine ⟨(w.accuracy * calculate_task_accuracy oc c td
      + w.efficiency * calculate_efficiency c
      + w.adaptability * calculate_adaptability oc c td mtd
      + w.recursion * (calculate_recursive_depth c : ℚ)
      + w.user_satisfaction * user_satisfaction_value oc c td ((g.reals g.ridx).val))
      :: fits, g2, ?_, ?_⟩
    · show bindG (calculate_fitness oc c td mtd w) _ g = _
      rw [bindG_ok (calculate_fitness_eq oc c td mtd w g), bindG_ok hrest]
      rfl
    · simp [hlen]

/-! Lemmas about the Python max over a list. -/

theorem foldl_max_le : ∀ (rest : List ℚ) (x : ℚ),
    x ≤ rest.foldl max x ∧ ∀ f ∈ rest, f ≤ rest.foldl max x := by
  intro rest
  induction rest with
  | nil => intro x; exact ⟨le_refl x, by simp⟩
  | cons y t ih =>
    intro x
    obtain ⟨h1, h2⟩ := ih (max x y)
    have hfold : (y :: t).foldl max x = t.foldl max (max x y) := rfl
    refine ⟨?_, ?_⟩
    · rw [hfold]
      exact le_trans (le_max_left x y) h1
    · intro f hf
      rw [hfold]
      rcases List.mem_cons.mp hf with hf | hf
      · rw [hf]
        exact le_trans (le_max_right x y) h1
      · exact h2 f hf

theorem foldl_max_mem : ∀ (rest : List ℚ) (x : ℚ), rest.foldl max x ∈ x :: rest := by
  intro rest
  induction rest with
  | nil => intro x; simp
  | cons y t ih =>
    intro x
    have hm := ih (max x y)
    rcases List.mem_cons.mp hm with h | h
    · show t.foldl max (max x y) ∈ x :: y :: t
      rcases max_choice x y with hc | hc
      · rw [h, hc]
        exact List.mem_cons_self x (y :: t)
      · rw [h, hc]
        exact List.mem_cons_of_mem x (List.mem_cons_self y t)
    · exact List.mem_cons_of_mem x (List.mem_cons_of_mem y h)

theorem pyMax_spec (fits : List ℚ) (h : fits ≠ []) :
    ∃ m, pyMax fits = some m ∧ m ∈ fits ∧ ∀ f ∈ fits, f ≤ m := by
  cases fits with
  | nil => exact absurd rfl h
  | cons x rest =>
    refine ⟨rest.foldl max x, rfl, foldl_max_mem rest x, ?_⟩
    intro f hf
    rcases List.mem_cons.mp hf with hf | hf
    · exact hf ▸ (foldl_max_le rest x).1
    · exact (foldl_max_le rest x).2 f hf

/-! Lemmas about best-individual extraction. -/

theorem best_of_spec (oc : Oracles) (td mtd : String) (w : Weights)
    (population : List (List Char)) (hpop : population ≠ []) (g : RGen) :
    ∃ fits g1 m, eval_fitnesses oc td mtd w population g = Except.ok (fits, g1)
      ∧ fits.length = population.length ∧ pyMax fits = some m ∧ m ∈ fits
      ∧ (∀ f ∈ fits, f ≤ m)
      ∧ best_of oc td mtd w population g
          = Except.ok (population.getD (fits.indexOf m) [], g1)
      ∧ population.getD (fits.indexOf m) [] ∈ population := by
  obtain ⟨fits, g1, heval, hlen⟩ := eval_fitnesses_spec oc td mtd w population g
  have hfne : fits ≠ [] := by
    intro e
    rw [e] at hlen
    exact hpop (List.length_eq_zero.mp hlen.symm)
  obtain ⟨m, hmax, hmem, hle⟩ := pyMax_spec fits hfne
  have hidx : fits.indexOf m < fits.length := List.indexOf_lt_length.mpr hmem
  have hidx2 : fits.indexOf m < population.length := hlen ▸ hidx
  refine ⟨fits, g1, m, heval, hlen, hmax, hmem, hle, ?_,
    getD_mem_of_lt _ _ _ hidx2⟩
  show bindG (eval_fitnesses oc td mtd w population) _ g = _
  rw [bindG_ok heval]
  simp only [hmax]
  rw [if_pos hidx2]
  rfl

theorem best_of_nil_err (oc : Oracles) (td mtd : String) (w : Weights) (g : RGen) :
    best_of oc td mtd w [] g = Except.error (PyErr.valueError, g) := rfl

/-! Lemmas about the breeding loop and the generational loop. -/

theorem breed_pair_spec (symbol_set : List Char) (hsym : symbol_set ≠ [])
    (mutation_rate : ℚ) (p1 p2 : List Char) (h1 : 2 ≤ p1.length) (h2 : 2 ≤ p2.length)
    (g : RGen) :
    ∃ m1 m2 g1, breed_pair symbol_set mutation_rate [p1, p2] g = Except.ok ([m1, m2], g1)
      ∧ m1.length = p2.length ∧ m2.length = p1.length := by
  obtain ⟨pt, gA, hcross, _, _, hc1, hc2⟩ := crossover_spec p1 p2 h1 h2 g
  obtain ⟨m1, gB, hm1, hm1len, _⟩ :=
    mutate_spec symbol_set hsym mutation_rate (p1.take pt ++ p2.drop pt) gA
  obtain ⟨m2, gC, hm2, hm2len, _⟩ :=
    mutate_spec symbol_set hsym mutation_rate (p2.take pt ++ p1.drop pt) gB
  refine ⟨m1, m2, gC, ?_, by rw [hm1len, hc1], by rw [hm2len, hc2]⟩
  show bindG (crossover p1 p2) _ g = _
  rw [bindG_ok hcross]
  show bindG (mutate symbol_set mutation_rate (p1.take pt ++ p2.drop pt)) _ gA = _
  rw [bindG_ok hm1]
  show bindG (mutate symbol_set mutation_rate (p2.take pt ++ p1.drop pt)) _ gB = _
  rw [bindG_ok hm2]
  rfl

theorem breed_loop_spec (symbol_set : List Char) (hsym : symbol_set ≠ [])
    (mutation_rate : ℚ) (population : List (List Char)) (fitnesses : List ℚ)
    (hpop : population ≠ []) (hfit : fitnesses ≠ [])
    (hlen2 : ∀ c ∈ population, 2 ≤ c.length) :
    ∀ (k : ℕ) (g : RGen), ∃ out g1,
      breed_loop symbol_set mutation_rate population fitnesses k g = Except.ok (out, g1)
      ∧ out.length = 2 * k ∧ ∀ c ∈ out, 2 ≤ c.length := by
  intro k
  induction k with
  | zero => intro g; exact ⟨[], g, rfl, rfl, by simp⟩
  | succ k2 ih =>
    intro g
    obtain ⟨p1, p2, g1, hsel, hp1, hp2⟩ :=
      select_parents_spec population fitnesses hpop hfit g
    obtain ⟨m1, m2, g2, hpair, hm1len, hm2len⟩ :=
      breed_pair_spec symbol_set hsym mutation_rate p1 p2
        (hlen2 p1 hp1) (hlen2 p2 hp2) g1
    obtain ⟨rest, g3, hrest, hrlen, hrmem⟩ := ih g2
    refine ⟨[m1, m2] ++ rest, g3, ?_, ?_, ?_⟩
    · show bindG (select_parents population fitnesses 2) _ g = _
      rw [bindG_ok hsel]
      show bindG (breed_pair symbol_set mutation_rate [p1, p2]) _ g1 = _
      rw [bindG_ok hpair, bindG_ok hrest]
      rfl
    · simp only [List.length_append, hrlen]
      simp
      omega
    · intro c hc
      rcases List.mem_append.mp hc with hc | hc
      · rcases List.mem_cons.mp hc with hc | hc
        · rw [hc, hm1len]
          exact hlen2 p2 hp2
        · rcases List.mem_cons.mp hc with hc | hc
          · rw [hc, hm2len]
            exact hlen2 p1 hp1
          · simp at hc
      · exact hrmem c hc

theorem breed_loop_empty (symbol_set : List Char) (mutation_rate : ℚ)
    (fitnesses : List ℚ) : ∀ (k : ℕ) (g : RGen),
    breed_loop symbol_set mutation_rate [] fitnesses k g = Except.ok ([], g) := by
  intro k
  induction k with
  | zero => intro g; rfl
  | succ k2 ih =>
    intro g
    have hsel : select_parents [] fitnesses 2 g = Except.ok ([], g) := by
      simp only [select_parents]
      rw [if_pos (by simp)]
      rfl
    show bindG (select_parents [] fitnesses 2) _ g = _
    rw [bindG_ok hsel]
    show bindG (breed_pair symbol_set mutation_rate []) _ g = _
    rw [bindG_ok (show breed_pair symbol_set mutation_rate [] g = Except.ok ([], g) from rfl)]
    rw [bindG_ok (ih g)]
    rfl

theorem ga_generation_spec (oc : Oracles) (td mtd : String) (w : Weights)
    (symbol_set : List Char) (hsym : symbol_set ≠ []) (mutation_rate : ℚ)
    (population_size : ℕ) (population : List (List Char)) (hpop : population ≠ [])
    (hlen2 : ∀ c ∈ population, 2 ≤ c.length) (g : RGen) :
    ∃ pop2 g1, ga_generation oc td mtd w symbol_set mutation_rate population_size
        population g = Except.ok (pop2, g1)
      ∧ pop2 ≠ [] ∧ (∀ c ∈ pop2, 2 ≤ c.length)
      ∧ (population_size / 2 = 0 → pop2 = population)
      ∧ (1 ≤ population_size / 2 → pop2.length = 2 * (population_size / 2)) := by
  obtain ⟨fits, g1, heval, hflen⟩ := eval_fitnesses_spec oc td mtd w population g
  have hfne : fits ≠ [] := by
    intro e
    rw [e] at hflen
    exact hpop (List.length_eq_zero.mp hflen.symm)
  obtain ⟨out, g2, hbreed, holen, homem⟩ :=
    breed_loop_spec symbol_set hsym mutation_rate population fits hpop hfne hlen2
      (population_size / 2) g1
  by_cases hz : population_size / 2 = 0
  · have hout : out = [] := by
      apply List.length_eq_zero.mp
      rw [holen, hz]
    refine ⟨population, g2, ?_, hpop, hlen2, fun _ => rfl, fun h1 => absurd hz (by omega)⟩
    show bindG (eval_fitnesses oc td mtd w population) _ g = _
    rw [bindG_ok heval]
    show bindG (breed_loop symbol_set mutation_rate population fits (population_size / 2)) _ g1 = _
    rw [bindG_ok hbreed, hout]
    rfl
  · have hone : out ≠ [] := by
      intro e
      rw [e] at holen
      simp at holen
      omega
    have hoe : ¬ (out.isEmpty = true) := by simp [hone]
    refine ⟨out, g2, ?_, hone, homem, fun h0 => absurd h0 hz, fun _ => holen⟩
    show bindG (eval_fitnesses oc td mtd w population) _ g = _
    rw [bindG_ok heval]
    show bindG (breed_loop symbol_set mutation_rate population fits (population_size / 2)) _ g1 = _
    rw [bindG_ok hbreed]
    show pureG (if out.isEmpty then population else out) g2 = _
    rw [if_neg hoe]
    rfl

theorem ga_generation_empty (oc : Oracles) (td mtd : String) (w : Weights)
    (symbol_set : List Char) (mutation_rate : ℚ) (population_size : ℕ) (g : RGen) :
    ga_generation oc td mtd w symbol_set mutation_rate population_size [] g
      = Except.ok ([], g) := by
  show bindG (eval_fitnesses oc td mtd w []) _ g = _
  rw [bindG_ok (show eval_fitnesses oc td mtd w [] g = Except.ok ([], g) from rfl)]
  rw [bindG_ok (breed_loop_empty symbol_set mutation_rate [] (population_size / 2) g)]
  rfl

theorem ga_loop_empty (oc : Oracles) (td mtd : String) (w : Weights)
    (symbol_set : List Char) (mutation_rate : ℚ) (population_size : ℕ) :
    ∀ (n : ℕ) (g : RGen),
      ga_loop oc td mtd w symbol_set mutation_rate population_size [] n g
        = Except.ok ([], g) := by
  intro n
  induction n with
  | zero => intro g; rfl
  | succ m ih =>
    intro g
    show bindG (ga_generation oc td mtd w symbol_set mutation_rate population_size []) _ g = _
    rw [bindG_ok (ga_generation_empty oc td mtd w symbol_set mutation_rate population_size g)]
    exact ih g

theorem ga_loop_spec (oc : Oracles) (td mtd : String) (w : Weights)
    (symbol_set : List Char) (hsym : symbol_set ≠ []) (mutation_rate : ℚ)
    (population_size : ℕ) :
    ∀ (n : ℕ) (population : List (List Char)), population ≠ [] →
      (∀ c ∈ population, 2 ≤ c.length) → ∀ g : RGen,
      ∃ popF g1, ga_loop oc td mtd w symbol_set mutation_rate population_size
          population n g = Except.ok (popF, g1)
        ∧ popF ≠ [] ∧ ∀ c ∈ popF, 2 ≤ c.length := by
  intro n
  induction n with
  | zero =>
    intro population hpop hlen2 g
    exact ⟨population, g, rfl, hpop, hlen2⟩
  | succ m ih =>
    intro population hpop hlen2 g
    obtain ⟨pop2, g1, hgen, hpop2, hlen22, _, _⟩ :=
      ga_generation_spec oc td mtd w symbol_set hsym mutation_rate population_size
        population hpop hlen2 g
    obtain ⟨popF, g2, hloop, hpopF, hlenF⟩ := ih pop2 hpop2 hlen22 g1
    refine ⟨popF, g2, ?_, hpopF, hlenF⟩
    show bindG (ga_generation oc td mtd w symbol_set mutation_rate population_size
      population) _ g = _
    rw [bindG_ok hgen]
    exact hloop

/-! Lemmas about the run entry point. -/

theorem run_body_spec (oc : Oracles) (td mtd : String) (w : Weights)
    (population_size num_generations : ℕ) (hps : 1 ≤ population_size)
    (symbol_set : List Char) (hsym : symbol_set ≠ []) (mutation_rate : ℚ) (g : RGen) :
    ∃ c g1, run_body oc td mtd w population_size num_generations symbol_set
        mutation_rate g = Except.ok (c, g1) := by
  obtain ⟨pop, g1, hinit, hplen, hpmem⟩ :=
    generate_initial_population_spec symbol_set hsym 5 20 (by omega) population_size g
  have hpop : pop ≠ [] := by
    intro e
    rw [e] at hplen
    simp at hplen
    omega
  have hlen2 : ∀ c ∈ pop, 2 ≤ c.length := by
    intro c hc
    have := (hpmem c hc).1
    omega
  obtain ⟨popF, g2, hloop, hpopF, _⟩ :=
    ga_loop_spec oc td mtd w symbol_set hsym mutation_rate population_size
      num_generations pop hpop hlen2 g1
  obtain ⟨fits, g3, m, _, _, _, _, _, hbest, _⟩ := best_of_spec oc td mtd w popF hpopF g2
  refine ⟨popF.getD (fits.indexOf m) [], g3, ?_⟩
  show bindG (generate_initial_population symbol_set 5 20 population_size) _ g = _
  rw [bindG_ok hinit]
  show bindG (ga_loop oc td mtd w symbol_set mutation_rate population_size pop
    num_generations) _ g1 = _
  rw [bindG_ok hloop]
  exact hbest

theorem run_body_zero_pop (oc : Oracles) (td mtd : String) (w : Weights)
    (num_generations : ℕ) (symbol_set : List Char) (mutation_rate : ℚ) (g : RGen) :
    run_body oc td mtd w 0 num_generations symbol_set mutation_rate g
      = Except.error (PyErr.valueError, g) := by
  show bindG (generate_initial_population symbol_set 5 20 0) _ g = _
  rw [bindG_ok (show generate_initial_population symbol_set 5 20 0 g
    = Except.ok ([], g) from rfl)]
  show bindG (ga_loop oc td mtd w symbol_set mutation_rate 0 [] num_generations) _ g = _
  rw [bindG_ok (ga_loop_empty oc td mtd w symbol_set mutation_rate 0 num_generations g)]
  exact best_of_nil_err oc td mtd w g

/-! The claims. -/

/-- C1 counterexample: on the non-empty parents of lengths 1 and 2 the
crossover call raises ValueError (the claim asserts it returns both
parents unchanged without raising). -/
theorem c1_crossover_len1_cx :
    crossover ['⦿'] ['⧈', '⧈'] zeroGen = Except.error (PyErr.valueError, zeroGen) := rfl

/-- C1 (amended): for every pair of non-empty parent chains whose shorter
member has length exactly 1, crossover raises ValueError from the
unchanged generator state (randint is called on the empty range [1, 0]);
it does not return the parents unchanged. -/
theorem c1_crossover_len1_raises (parent1 parent2 : List Char) (h1 : parent1 ≠ [])
    (h2 : parent2 ≠ []) (hmin : min parent1.length parent2.length = 1) (g : RGen) :
    crossover parent1 parent2 g = Except.error (PyErr.valueError, g) :=
  crossover_degenerate parent1 parent2 h1 h2 hmin g

/-- C1 witness: the amended theorem applied at concrete parents of lengths
1 and 2. -/
theorem c1_crossover_len1_raises_witness :
    crossover ['⧈'] ['⦿', '⦿'] zeroGen = Except.error (PyErr.valueError, zeroGen) :=
  c1_crossover_len1_raises ['⧈'] ['⦿', '⦿'] (by decide) (by decide) (by decide) zeroGen

/-- C2 counterexample: with the empty symbol alphabet, run_genetic_algorithm
raises to its caller (random.choice on the empty alphabet fails in the
initial population and again inside the except handler), contradicting the
claim that it never raises for every input. -/
theorem c2_run_raises_cx :
    ∃ e, run_genetic_algorithm oc0 "" "" w1 1 0 (some []) (1/10) zeroGen
      = Except.error e := ⟨_, rfl⟩

/-- C2 (amended): whenever the effective symbol alphabet (the supplied one,
or the default vocabulary for None) is non-empty, run_genetic_algorithm
never raises to its caller: every run returns ok, with the top-level
handler degrading any internal failure to a fresh random chain. -/
theorem c2_run_never_raises (oc : Oracles) (td mtd : String) (w : Weights)
    (population_size num_generations : ℕ) (symbol_set : Option (List Char))
    (mutation_rate : ℚ) (g : RGen) (hsym : symbol_set.getD essanSymbols ≠ []) :
    ∃ c g1, run_genetic_algorithm oc td mtd w population_size num_generations
        symbol_set mutation_rate g = Except.ok (c, g1) := by
  cases population_size with
  | zero =>
    obtain ⟨c, g1, hchain, _, _⟩ := generate_chain_spec _ hsym 5 g
    refine ⟨c, g1, ?_⟩
    show tryCatchG (run_body oc td mtd w 0 num_generations
      (symbol_set.getD essanSymbols) mutation_rate)
      (generate_chain (symbol_set.getD essanSymbols) 5) g = _
    rw [tryCatchG_of_err (run_body_zero_pop oc td mtd w num_generations _ mutation_rate g)]
    exact hchain
  | succ ps2 =>
    obtain ⟨c, g1, hbody⟩ := run_body_spec oc td mtd w (ps2 + 1) num_generations
      (by omega) _ hsym mutation_rate g
    exact ⟨c, g1, tryCatchG_of_ok hbody⟩

/-- C2 witness: the amended theorem applied at a concrete non-empty
alphabet. -/
theorem c2_run_never_raises_witness :
    ∃ c g1, run_genetic_algorithm oc0 "" "" w1 1 0 (some ['⦿']) (1/10) zeroGen
      = Except.ok (c, g1) :=
  c2_run_never_raises oc0 "" "" w1 1 0 (some ['⦿']) (1/10) zeroGen (by decide)

/-- C3: the synonym lookup does not always contain the original word.  When
the lexical database yields a synset whose only lemma name is dog for the
word dogs, get_synonyms returns the set containing dog alone, dropping the
original word, although the code's own comment says the synonyms are
returned along with the original word. -/
theorem c3_get_synonyms_drops_word :
    get_synonyms dogOracle "dogs" = ["dog"]
    ∧ "dogs" ∉ get_synonyms dogOracle "dogs" := by
  constructor
  · decide
  · decide

/-- C4 counterexample: with configured population size 3 (on a concrete
generator, concrete oracles and a concrete alphabet) the population at the
start of generation 1 has 2 members, not the configured 3, even though
valid parent pairs were produced. -/
theorem c4_population_size_cx :
    ∃ pop0 g1 pop2 g2,
      generate_initial_population ['⦿'] 5 20 3 zeroGen = Except.ok (pop0, g1)
      ∧ pop0.length = 3
      ∧ ga_generation oc0 "" "" w1 ['⦿'] (1/10) 3 pop0 g1 = Except.ok (pop2, g2)
      ∧ pop2.length = 2 := by
  obtain ⟨pop0, g1, hinit, hlen, hmem⟩ :=
    generate_initial_population_spec ['⦿'] (by decide) 5 20 (by norm_num) 3 zeroGen
  have hpop : pop0 ≠ [] := by
    intro e
    rw [e] at hlen
    simp at hlen
  have hlen2 : ∀ c ∈ pop0, 2 ≤ c.length := by
    intro c hc
    have := (hmem c hc).1
    omega
  obtain ⟨pop2, g2, hgen, _, _, _, hsize⟩ :=
    ga_generation_spec oc0 "" "" w1 ['⦿'] (by decide) (1/10) 3 pop0 hpop hlen2 g1
  exact ⟨pop0, g1, pop2, g2, hinit, hlen, hgen, by rw [hsize (by norm_num)]⟩

/-- C4 (amended): the initial population has exactly the configured size,
so generation 0 starts at the configured size; each later generation start
has 2 * (population_size / 2) members, the configured size rounded down to
an even number, except the documented retention case population_size / 2 = 0
in which the previous population is kept unchanged. -/
theorem c4_population_size (oc : Oracles) (td mtd : String) (w : Weights)
    (symbol_set : List Char) (hsym : symbol_set ≠ []) (mutation_rate : ℚ)
    (population_size : ℕ) (population : List (List Char)) (hpop : population ≠ [])
    (hlen2 : ∀ c ∈ population, 2 ≤ c.length) (g : RGen) :
    (∀ (n : ℕ) (g0 : RGen), ∃ pop0 g1,
      generate_initial_population symbol_set 5 20 n g0 = Except.ok (pop0, g1)
      ∧ pop0.length = n)
    ∧ ∃ pop2 g1, ga_generation oc td mtd w symbol_set mutation_rate population_size
        population g = Except.ok (pop2, g1)
      ∧ (population_size / 2 = 0 → pop2 = population)
      ∧ (1 ≤ population_size / 2 → pop2.length = 2 * (population_size / 2)) := by
  constructor
  · intro n g0
    obtain ⟨pop0, g1, hinit, hlen, _⟩ :=
      generate_initial_population_spec symbol_set hsym 5 20 (by norm_num) n g0
    exact ⟨pop0, g1, hinit, hlen⟩
  · obtain ⟨pop2, g1, hgen, _, _, hz, ho⟩ :=
      ga_generation_spec oc td mtd w symbol_set hsym mutation_rate population_size
        population hpop hlen2 g
    exact ⟨pop2, g1, hgen, hz, ho⟩

/-- C4 witness: the amended theorem applied at a concrete population of
size 1 with configured size 3. -/
theorem c4_population_size_witness :
    (∀ (n : ℕ) (g0 : RGen), ∃ pop0 g1,
      generate_initial_population ['⦿'] 5 20 n g0 = Except.ok (pop0, g1)
      ∧ pop0.length = n)
    ∧ ∃ pop2 g1, ga_generation oc0 "" "" w1 ['⦿'] (1/10) 3
        [['⦿', '⦿']] zeroGen = Except.ok (pop2, g1)
      ∧ ((3 : ℕ) / 2 = 0 → pop2 = [['⦿', '⦿']])
      ∧ (1 ≤ (3 : ℕ) / 2 → pop2.length = 2 * ((3 : ℕ) / 2)) :=
  c4_population_size oc0 "" "" w1 ['⦿'] (by decide) (1/10) 3 [['⦿', '⦿']]
    (by decide) (by decide) zeroGen

/-- C5: one tournament of select_parents samples min(3, population size)
distinct indices below the population size, and returns the member at the
scanned winner index, whose fitness is at least every fitness in the
sample; the winner is the first sampled index attaining that fitness, every
sampled index before it having strictly smaller fitness (a later index
replaces the winner only on strictly greater fitness); in particular the
returned chain is a member of the population whose fitness is not below
the minimum of the sampled subset. -/
theorem c5_tournament_selection (population : List (List Char)) (fitnesses : List ℚ)
    (hpop : population ≠ []) (hfit : fitnesses.length = population.length) (g : RGen) :
    ∃ t g1 w, sampleRange population.length (min 3 population.length) g = Except.ok (t, g1)
      ∧ select_one population fitnesses g = Except.ok (population.getD w [], g1)
      ∧ t.length = min 3 population.length ∧ t.Nodup ∧ (∀ i ∈ t, i < population.length)
      ∧ w ∈ t ∧ (∀ i ∈ t, fitnesses.getD i 0 ≤ fitnesses.getD w 0)
      ∧ (∃ t1 t2, t = t1 ++ w :: t2 ∧ ∀ i ∈ t1, fitnesses.getD i 0 < fitnesses.getD w 0)
      ∧ population.getD w [] ∈ population :=
  select_one_spec population fitnesses hpop g

/-- C5 witness: the theorem applied at a concrete two-member population. -/
theorem c5_tournament_selection_witness :
    ∃ t g1 w, sampleRange (2 : ℕ) (min 3 2) zeroGen = Except.ok (t, g1)
      ∧ select_one [['⦿'], ['⧈', '⧈']] [1, 2] zeroGen
          = Except.ok (([['⦿'], ['⧈', '⧈']] : List (List Char)).getD w [], g1)
      ∧ t.length = min 3 2 ∧ t.Nodup ∧ (∀ i ∈ t, i < 2)
      ∧ w ∈ t ∧ (∀ i ∈ t, ([1, 2] : List ℚ).getD i 0 ≤ ([1, 2] : List ℚ).getD w 0)
      ∧ (∃ t1 t2, t = t1 ++ w :: t2
          ∧ ∀ i ∈ t1, ([1, 2] : List ℚ).getD i 0 < ([1, 2] : List ℚ).getD w 0)
      ∧ ([['⦿'], ['⧈', '⧈']] : List (List Char)).getD w [] ∈ [['⦿'], ['⧈', '⧈']] :=
  c5_tournament_selection [['⦿'], ['⧈', '⧈']] [1, 2] (by decide) (by decide) zeroGen

/-- C6: the composite fitness is exactly the weighted sum of the five
sub-metric values with the supplied weights and no normalization; when the
four other weights are 0, the fitness is the recursion weight times the
recursion sub-metric value. -/
theorem c6_fitness_weighted_sum (oc : Oracles) (chain : List Char) (td mtd : String)
    (w : Weights) (g : RGen) :
    calculate_fitness oc chain td mtd w g = Except.ok (
      w.accuracy * calculate_task_accuracy oc chain td
      + w.efficiency * calculate_efficiency chain
      + w.adaptability * calculate_adaptability oc chain td mtd
      + w.recursion * (calculate_recursive_depth chain : ℚ)
      + w.user_satisfaction * user_satisfaction_value oc chain td ((g.reals g.ridx).val),
      RGen.mk g.nats g.reals g.nidx (g.ridx + 1))
    ∧ (w.accuracy = 0 → w.efficiency = 0 → w.adaptability = 0 → w.user_satisfaction = 0 →
        calculate_fitness oc chain td mtd w g = Except.ok (
          w.recursion * (calculate_recursive_depth chain : ℚ),
          RGen.mk g.nats g.reals g.nidx (g.ridx + 1))) := by
  refine ⟨calculate_fitness_eq oc chain td mtd w g, ?_⟩
  intro ha he had hus
  have hval : w.accuracy * calculate_task_accuracy oc chain td
      + w.efficiency * calculate_efficiency chain
      + w.adaptability * calculate_adaptability oc chain td mtd
      + w.recursion * (calculate_recursive_depth chain : ℚ)
      + w.user_satisfaction * user_satisfaction_value oc chain td ((g.reals g.ridx).val)
      = w.recursion * (calculate_recursive_depth chain : ℚ) := by
    rw [ha, he, had, hus]
    ring
  rw [calculate_fitness_eq oc chain td mtd w g, hval]

/-- C6 witness: with weights isolating recursion and a chain holding the
cycle symbol, the fitness is the recursion weight times the recursion
value. -/
theorem c6_fitness_weighted_sum_witness :
    calculate_fitness oc0 ['⧿', '⧿'] "" "" wRec zeroGen = Except.ok (
      wRec.recursion * (calculate_recursive_depth ['⧿', '⧿'] : ℚ),
      RGen.mk zeroGen.nats zeroGen.reals zeroGen.nidx (zeroGen.ridx + 1)) :=
  (c6_fitness_weighted_sum oc0 ['⧿', '⧿'] "" "" wRec zeroGen).2 rfl rfl rfl rfl

/-- C7: mutation always preserves the chain length for a non-empty
alphabet; with rate 0 the chain is returned unchanged (the per-symbol
random draw, which lies in [0, 1), is never below 0); with rate 1 every
position is replaced by an independently drawn uniform symbol of the
alphabet (position j receiving the draw of raw index nidx + j), which may
coincide with the original symbol. -/
theorem c7_mutate_properties (symbol_set : List Char) (hsym : symbol_set ≠ [])
    (mutation_rate : ℚ) (chain : List Char) (g : RGen) :
    (∃ out g1, mutate symbol_set mutation_rate chain g = Except.ok (out, g1)
      ∧ out.length = chain.length)
    ∧ mutate symbol_set 0 chain g = Except.ok (chain,
        RGen.mk g.nats g.reals g.nidx (g.ridx + chain.length))
    ∧ mutate symbol_set 1 chain g = Except.ok (
        (List.range chain.length).map
          (fun j => symbol_set.getD (g.nats (g.nidx + j) % symbol_set.length) 'A'),
        RGen.mk g.nats g.reals (g.nidx + chain.length) (g.ridx + chain.length)) := by
  obtain ⟨out, g1, hok, hlen, _⟩ := mutate_spec symbol_set hsym mutation_rate chain g
  exact ⟨⟨out, g1, hok, hlen⟩, mutate_zero symbol_set chain g,
    mutate_one symbol_set hsym chain g⟩

/-- C7 witness: the theorem applied at a concrete alphabet and chain; the
length-preservation conjunct is extracted. -/
theorem c7_mutate_properties_witness :
    ∃ out g1, mutate ['⦿'] (37/100) ['⧈', '⧈'] zeroGen = Except.ok (out, g1)
      ∧ out.length = 2 :=
  (c7_mutate_properties ['⦿'] (by decide) (37/100) ['⧈', '⧈'] zeroGen).1

/-- C8: with zero generations (and a positive population size and non-empty
alphabet) the run returns the member of the initial population at the
index of the first maximal fitness, with no crossover or mutation applied:
the run is exactly initial generation followed by one fitness evaluation
and the subscript at the argmax. -/
theorem c8_zero_generations (oc : Oracles) (td mtd : String) (w : Weights)
    (population_size : ℕ) (hps : 1 ≤ population_size) (symbol_set : List Char)
    (hsym : symbol_set ≠ []) (mutation_rate : ℚ) (g : RGen) :
    ∃ pop g1 fits g2 m,
      generate_initial_population symbol_set 5 20 population_size g = Except.ok (pop, g1)
      ∧ pop.length = population_size
      ∧ eval_fitnesses oc td mtd w pop g1 = Except.ok (fits, g2)
      ∧ pyMax fits = some m ∧ (∀ f ∈ fits, f ≤ m)
      ∧ run_genetic_algorithm oc td mtd w population_size 0 (some symbol_set)
          mutation_rate g = Except.ok (pop.getD (fits.indexOf m) [], g2)
      ∧ pop.getD (fits.indexOf m) [] ∈ pop := by
  obtain ⟨pop, g1, hinit, hplen, _⟩ :=
    generate_initial_population_spec symbol_set hsym 5 20 (by norm_num)
      population_size g
  have hpop : pop ≠ [] := by
    intro e
    rw [e] at hplen
    simp at hplen
    omega
  obtain ⟨fits, g2, m, heval, hflen, hmax, hmmem, hle, hbest, hbmem⟩ :=
    best_of_spec oc td mtd w pop hpop g1
  refine ⟨pop, g1, fits, g2, m, hinit, hplen, heval, hmax, hle, ?_, hbmem⟩
  show tryCatchG (run_body oc td mtd w population_size 0 symbol_set mutation_rate)
    (generate_chain symbol_set 5) g = _
  apply tryCatchG_of_ok
  show bindG (generate_initial_population symbol_set 5 20 population_size) _ g = _
  rw [bindG_ok hinit]
  show bindG (ga_loop oc td mtd w symbol_set mutation_rate population_size pop 0) _ g1 = _
  rw [bindG_ok (show ga_loop oc td mtd w symbol_set mutation_rate population_size pop 0 g1
    = Except.ok (pop, g1) from rfl)]
  exact hbest

/-- C8 witness: the theorem applied at population size 1 and a singleton
alphabet. -/
theorem c8_zero_generations_witness :
    ∃ pop g1 fits g2 m,
      generate_initial_population ['⦿'] 5 20 1 zeroGen = Except.ok (pop, g1)
      ∧ pop.length = 1
      ∧ eval_fitnesses oc0 "" "" w1 pop g1 = Except.ok (fits, g2)
      ∧ pyMax fits = some m ∧ (∀ f ∈ fits, f ≤ m)
      ∧ run_genetic_algorithm oc0 "" "" w1 1 0 (some ['⦿']) (1/10) zeroGen
          = Except.ok (pop.getD (fits.indexOf m) [], g2)
      ∧ pop.getD (fits.indexOf m) [] ∈ pop :=
  c8_zero_generations oc0 "" "" w1 1 (by norm_num) ['⦿'] (by decide) (1/10) zeroGen

/-- C9: for parents both of length at least 2, crossover succeeds with a
point pt in [1, min(len1, len2) - 1]; child1 is parent1's prefix up to pt
completed by parent2's suffix from pt (in parent2's own indexing) and has
parent2's length, and symmetrically child2 has parent1's length. -/
theorem c9_crossover_lengths (parent1 parent2 : List Char)
    (h1 : 2 ≤ parent1.length) (h2 : 2 ≤ parent2.length) (g : RGen) :
    ∃ pt g1, crossover parent1 parent2 g = Except.ok
        ((parent1.take pt ++ parent2.drop pt, parent2.take pt ++ parent1.drop pt), g1)
      ∧ 1 ≤ pt ∧ pt ≤ min parent1.length parent2.length - 1
      ∧ (parent1.take pt ++ parent2.drop pt).length = parent2.length
      ∧ (parent2.take pt ++ parent1.drop pt).length = parent1.length :=
  crossover_spec parent1 parent2 h1 h2 g

/-- C9 witness: the theorem applied at concrete parents of lengths 3
and 2. -/
theorem c9_crossover_lengths_witness :
    ∃ pt g1, crossover ['⦿', '⧈', '⧿'] ['⧬', '⫰'] zeroGen = Except.ok
        (((['⦿', '⧈', '⧿'] : List Char).take pt ++ (['⧬', '⫰'] : List Char).drop pt,
          (['⧬', '⫰'] : List Char).take pt ++ (['⦿', '⧈', '⧿'] : List Char).drop pt), g1)
      ∧ 1 ≤ pt ∧ pt ≤ min 3 2 - 1
      ∧ ((['⦿', '⧈', '⧿'] : List Char).take pt
          ++ (['⧬', '⫰'] : List Char).drop pt).length = 2
      ∧ ((['⧬', '⫰'] : List Char).take pt
          ++ (['⦿', '⧈', '⧿'] : List Char).drop pt).length = 3 :=
  c9_crossover_lengths ['⦿', '⧈', '⧿'] ['⧬', '⫰'] (by decide) (by decide) zeroGen

/-- C10: with population size 0 and a non-empty alphabet, the try body
fails with ValueError (max over the empty fitness list of the empty
population) leaving the generator state untouched, the exception is caught
at the top level, and the run returns the fallback: a fresh random chain
of length 5 drawn from the alphabet. -/
theorem c10_zero_population_fallback (oc : Oracles) (td mtd : String) (w : Weights)
    (num_generations : ℕ) (symbol_set : List Char) (hsym : symbol_set ≠ [])
    (mutation_rate : ℚ) (g : RGen) :
    ∃ c g1,
      run_body oc td mtd w 0 num_generations symbol_set mutation_rate g
        = Except.error (PyErr.valueError, g)
      ∧ generate_chain symbol_set 5 g = Except.ok (c, g1)
      ∧ run_genetic_algorithm oc td mtd w 0 num_generations (some symbol_set)
          mutation_rate g = Except.ok (c, g1)
      ∧ c.length = 5 ∧ ∀ x ∈ c, x ∈ symbol_set := by
  obtain ⟨c, g1, hchain, hclen, hcmem⟩ := generate_chain_spec symbol_set hsym 5 g
  refine ⟨c, g1,
    run_body_zero_pop oc td mtd w num_generations symbol_set mutation_rate g,
    hchain, ?_, hclen, hcmem⟩
  show tryCatchG (run_body oc td mtd w 0 num_generations symbol_set mutation_rate)
    (generate_chain symbol_set 5) g = _
  rw [tryCatchG_of_err
    (run_body_zero_pop oc td mtd w num_generations symbol_set mutation_rate g)]
  exact hchain

/-- C10 witness: the theorem applied at a concrete two-symbol alphabet. -/
theorem c10_zero_population_fallback_witness :
    ∃ c g1,
      run_body oc0 "" "" w1 0 4 ['⦿', '⧈'] (1/10) zeroGen
        = Except.error (PyErr.valueError, zeroGen)
      ∧ generate_chain ['⦿', '⧈'] 5 zeroGen = Except.ok (c, g1)
      ∧ run_genetic_algorithm oc0 "" "" w1 0 4 (some ['⦿', '⧈']) (1/10) zeroGen
          = Except.ok (c, g1)
      ∧ c.length = 5 ∧ ∀ x ∈ c, x ∈ ['⦿', '⧈'] :=
  c10_zero_population_fallback oc0 "" "" w1 4 ['⦿', '⧈'] (by decide) (1/10) zeroGen

end EssanGA
